import Mathlib

/-!
# CapsuleSampler — verification of the sampler core (src/Sampler.cpp)

Shallow embedding of the polyphonic sampler in `src/Sampler.cpp`:
the resampling kernel `sampler_process_inner`, the ADSR envelope
`SamplePlayer::UpdateGain`, pitch recomputation `SamplePlayer::UpdatePitch`,
the per-channel operations `Channel::NoteOn / NoteOff / PitchBend`, and the
voice-mixing phase of `Sampler::Process`.

Modelling conventions:
* `float` values (gains, pitches, fractional phases) are embedded as exact
  rationals `ℚ`; the float literal `0.001f` becomes `1/1000`.
* `powf(2, x)` is an opaque parameter `pow2 : ℚ → ℚ` passed to the
  definitions that need it, since `2 ^ x` is transcendental.
* Pointers into the immutable source waveform are embedded as `Nat` offsets
  into a total function `Nat → ℤ` (the int16 PCM data with guard samples).
* The mix bus `float data[SAMPLE_BUFFER_SIZE]` is a `List ℚ`; the output
  pointer of the kernel is a `Nat` index into it.
* The compile-time constants `MAX_SOUND`, `CH_COUNT`,
  `ADSR_UPDATE_SAMPLE_COUNT`, `SAMPLE_BUFFER_SIZE / ADSR_UPDATE_SAMPLE_COUNT`
  and the externals `velocityTable`, `masterVolume` are declared in the
  header (not among the sources) and are kept as parameters: the voice pool
  is a `List SamplePlayer` of length `MAX_SOUND`, the channel array a
  `List Channel` of length `CH_COUNT`.
* The weak back-reference `Channel::sampler` is embedded as a Boolean
  `alive` argument: `alive = true` means `sampler.lock()` succeeded.
-/

namespace CapsuleSampler

/-- The immutable `Sample` record (declared in the header; fields are as the
spec's data model and as read by `Sampler.cpp`). `sample`/`data` is the PCM
waveform as a total function, `length`, `root`, the ADSR coefficients and
the loop points exactly as used by `UpdateGain`, `UpdatePitch` and the
mixing pass. -/
structure Sample where
  wave : Nat → ℤ
  length : Nat
  root : Nat
  adsrEnabled : Bool
  attack : ℚ
  decay : ℚ
  sustain : ℚ
  release : ℚ
  loopStart : Nat
  loopEnd : Nat

/-- One entry of a timbre: inclusive note/velocity bounds plus the mapped
sample (`Timbre::MappedSample`). -/
structure MappedSample where
  lowerNoteNo : Nat
  upperNoteNo : Nat
  lowerVelocity : Nat
  upperVelocity : Nat
  sample : Sample

/-- A timbre: the ordered list of mapped samples. -/
structure Timbre where
  samples : List MappedSample

/-- The lookup `Timbre::GetAppropriateSample` (Sampler.cpp:42-50): first mapped sample
whose inclusive note and velocity ranges contain the query, else none. -/
def Timbre.GetAppropriateSample (t : Timbre) (noteNo velocity : Nat) : Option Sample :=
  go t.samples
where
  go : List MappedSample → Option Sample
    | [] => none
    | ms :: rest =>
      if ms.lowerNoteNo ≤ noteNo ∧ noteNo ≤ ms.upperNoteNo ∧
         ms.lowerVelocity ≤ velocity ∧ velocity ≤ ms.upperVelocity then
        some ms.sample
      else go rest

/-- The ADSR segment (`SamplePlayer::AdsrState` in the header). -/
inductive AdsrState where
  | attack
  | decay
  | sustain
  | release
deriving DecidableEq, Repr

/-- The `SamplePlayer` voice record (declared in the header; fields as read
and written by `Sampler.cpp`). `sample = none` models the empty
`std::optional` reference. -/
structure SamplePlayer where
  sample : Option Sample
  noteNo : Nat
  volume : ℚ
  pitchBend : ℚ
  channel : Nat
  createdAt : Nat
  pitch : ℚ
  gain : ℚ
  playing : Bool
  released : Bool
  pos : Nat
  posF : ℚ
  adsrState : AdsrState

/-- The method `SamplePlayer::UpdatePitch` (Sampler.cpp:170-176): no-op without a
sample; otherwise `pitch = powf(2, (noteNo - root + pitchBend) / 12)`
(the `uint8` subtraction promotes to `int`, hence the cast through `ℚ`).
`pow2` stands for `powf(2, ·)`. -/
def SamplePlayer.UpdatePitch (pow2 : ℚ → ℚ) (p : SamplePlayer) : SamplePlayer :=
  match p.sample with
  | none => p
  | some s =>
    { p with pitch := pow2 (((p.noteNo : ℚ) - (s.root : ℚ) + p.pitchBend) / 12) }

/-- The envelope step `SamplePlayer::UpdateGain` (Sampler.cpp:177-223): no-op without a
sample; with ADSR disabled, `gain = volume`; otherwise `released` forces
the segment to `release` before the switch, and the segment rules are the
attack/decay/sustain/release updates of the source (`0.001f` as `1/1000`). -/
def SamplePlayer.UpdateGain (p : SamplePlayer) : SamplePlayer :=
  match p.sample with
  | none => p
  | some s =>
    if ¬ s.adsrEnabled then
      { p with gain := p.volume }
    else
      let p1 := if p.released then { p with adsrState := AdsrState.release } else p
      match p1.adsrState with
      | AdsrState.attack =>
        let g := p1.gain + s.attack * p1.volume
        if g ≥ p1.volume then
          { p1 with gain := p1.volume, adsrState := AdsrState.decay }
        else
          { p1 with gain := g }
      | AdsrState.decay =>
        let goal := s.sustain * p1.volume
        let g := (p1.gain - goal) * s.decay + goal
        if g - goal < 1/1000 then
          { p1 with gain := goal, adsrState := AdsrState.sustain }
        else
          { p1 with gain := g }
      | AdsrState.sustain => p1
      | AdsrState.release =>
        let g := p1.gain * s.release
        if g < 1/1000 then
          { p1 with gain := 0, playing := false }
        else
          { p1 with gain := g }

/-- Modelled from the spec: the `SamplePlayer` allocation constructor is
declared in `Sampler.h`, which is not among the sources; only its call
sites in `Channel::NoteOn` are. Following the spec's words: §4.B "voice
reset; `gain=0`, `adsrState=attack`, `released=false`, `playing=true`,
`pos=0`, `pos_f=0`, `createdAt = nextTick++`"; §4.E "If the timbre produced
no matching sample, the voice must still be reset to an *idle* state
(`playing=false`)"; §3 "`pitch`: playback rate =
`2^((noteNo − sample.root + pitchBend)/12)`"; §4.B "If `adsrEnabled=false`,
the envelope is inert: `gain = volume` permanently", so the reset
establishes `gain = volume` in that case (the mixing pass never invokes
`UpdateGain` on such a voice). -/
def SamplePlayer.reset (pow2 : ℚ → ℚ) (sample : Option Sample) (noteNo : Nat)
    (volume : ℚ) (pitchBend : ℚ) (channel : Nat) (createdAt : Nat) : SamplePlayer :=
  { sample := sample
    noteNo := noteNo
    volume := volume
    pitchBend := pitchBend
    channel := channel
    createdAt := createdAt
    pitch := match sample with
      | none => 1
      | some s => pow2 (((noteNo : ℚ) - (s.root : ℚ) + pitchBend) / 12)
    gain := match sample with
      | none => 0
      | some s => if s.adsrEnabled then 0 else volume
    playing := sample.isSome
    released := false
    pos := 0
    posF := 0
    adsrState := AdsrState.attack }

/-- An entry of `Channel::playingNotes`: `PlayingNote{noteNo, playerId}`. -/
structure PlayingNote where
  noteNo : Nat
  playerId : Nat
deriving DecidableEq, Repr

/-- The per-channel state (`Sampler::Channel`, header): the optional timbre,
the current bend in semitones, and the `playingNotes` list. -/
structure Channel where
  timbre : Option Timbre
  pitchBend : ℚ
  playingNotes : List PlayingNote

/-- The sampler state the channel operations touch: the voice pool
`players` (length `MAX_SOUND`), the channel array (length `CH_COUNT`), and
the monotone voice-start tick (spec §4.B `createdAt = nextTick++`; the
counter itself lives in the header). -/
structure SamplerState where
  players : List SamplePlayer
  channels : List Channel
  nextTick : Nat

/-! ## The resampling kernel `sampler_process_inner` (Sampler.cpp:248-280) -/

/-- The kernel workspace `sampler_process_inner_work_t` (Sampler.cpp:227-234):
`src` is the offset of the source pointer into the waveform, `dst` the index
of the output pointer into the mix bus. -/
structure InnerWork where
  src : Nat
  dst : Nat
  posF : ℚ
  gain : ℚ
  pitch : ℚ
deriving DecidableEq, Repr

/-- One iteration of the kernel's `do`-loop (Sampler.cpp:256-275): linear
interpolation between `s[0]` and `s[1]`, additive accumulation
`d[0] += val * gain`, then phase advance `pos_f += pitch`,
`intval = (uint32)pos_f`, `pos_f -= intval`, `s += intval`. The `uint32`
cast truncates toward zero, which for the nonnegative phases of the claims
is `⌊·⌋`; `Int.toNat` composes the cast to the `Nat` offset. -/
def innerStep (wave : Nat → ℤ) (bus : List ℚ) (w : InnerWork) : List ℚ × InnerWork :=
  let s0 : ℚ := (wave w.src : ℤ)
  let s1 : ℚ := (wave (w.src + 1) : ℤ)
  let val := s0 + (s1 - s0) * w.posF
  let bus' := bus.set w.dst (bus.getD w.dst 0 + val * w.gain)
  let posF1 := w.posF + w.pitch
  let intval : Nat := (Rat.floor posF1).toNat
  (bus', { w with src := w.src + intval, dst := w.dst + 1, posF := posF1 - (intval : ℚ) })

/-- The kernel `sampler_process_inner` (Sampler.cpp:248-280): run the `do … while (--length)`
loop `length` times (the claims assume `length ≥ 1`; for `length = 0` the C
`uint32` decrement would wrap, which is outside their scope). Returns the
mix bus and the written-back workspace (`src`, `dst`, `pos_f` updated;
`gain`, `pitch` untouched by the loop). -/
def sampler_process_inner (wave : Nat → ℤ) (bus : List ℚ) (w : InnerWork) :
    Nat → List ℚ × InnerWork
  | 0 => (bus, w)
  | n + 1 =>
    let (bus', w') := innerStep wave bus w
    sampler_process_inner wave bus' w' n

/-- The phase recurrence of the kernel, defined independently of the buffer:
`(src, pos_f)` after `k` advances by `pitch` with integer-part extraction. -/
def phase (pitch : ℚ) (sp : Nat × ℚ) : Nat → Nat × ℚ
  | 0 => sp
  | k + 1 =>
    let next := sp.2 + pitch
    let intval : Nat := (Rat.floor next).toNat
    phase pitch (sp.1 + intval, next - (intval : ℚ)) k

/-- The value interpolated by the kernel at phase `(src, pos_f)`:
`s[0] + (s[1] - s[0]) * pos_f`. -/
def interpVal (wave : Nat → ℤ) (sp : Nat × ℚ) : ℚ :=
  ((wave sp.1 : ℤ) : ℚ) + (((wave (sp.1 + 1) : ℤ) : ℚ) - ((wave sp.1 : ℤ) : ℚ)) * sp.2

/-! ## The voice-mixing phase of `Sampler::Process` (Sampler.cpp:313-374) -/

/-- The loop-point wrap of the mixing pass (Sampler.cpp:364-367):
`do { pos += loopBack; } while (pos >= loopEnd);` with
`loopBack = loopStart - loopEnd`. Modelled for a well-formed loop
`loopStart < loopEnd` (each pass subtracts `loopEnd - loopStart`, never
underflowing the `uint32` since the guard keeps `pos ≥ loopEnd`); with
`loopStart ≥ loopEnd` the C loop would not terminate before the `uint32`
wraps, and this model leaves `pos` unchanged. -/
def wrapGo (loopStart loopEnd : Nat) : Nat → Nat → Nat
  | 0, pos => pos
  | fuel + 1, pos =>
    if loopStart < loopEnd ∧ loopEnd ≤ pos then
      wrapGo loopStart loopEnd fuel (pos - (loopEnd - loopStart))
    else pos

/-- The wrap loop with fuel `pos + 1`: when `loopStart < loopEnd` every pass
strictly decreases `pos`, so the guard fails before the fuel runs out
(`wrapGo_fuel_irrelevant`), and the result is exactly that of the C
`do`-`while`. -/
def wrapPos (loopStart loopEnd pos : Nat) : Nat :=
  wrapGo loopStart loopEnd (pos + 1) pos

/-- One iteration `j` of the inner loop of the mixing pass
(Sampler.cpp:323-372) for one voice: the guard on the sample, the
conditional `UpdateGain`, the `playing` check, the effective gain
`gain * masterVolume * 65536`, the kernel call on
`ADSR_UPDATE_SAMPLE_COUNT = n` samples at bus offset `dstBase`, and the
loop-end handling. Returns the bus, the updated voice, and whether the
inner loop `break`s. On the `loopBack == 0` break the source does not
write `pos`/`pos_f` back. -/
def mixStep (masterVolume : ℚ) (n : Nat) (bus : List ℚ) (dstBase : Nat)
    (p : SamplePlayer) : List ℚ × SamplePlayer × Bool :=
  match p.sample with
  | none => (bus, p, true)
  | some s =>
    let p1 := if s.adsrEnabled then p.UpdateGain else p
    if p1.playing = false then (bus, p1, true)
    else
      let gain := p1.gain * (masterVolume * 65536)
      let w0 : InnerWork :=
        { src := p1.pos, dst := dstBase, posF := p1.posF, gain := gain, pitch := p1.pitch }
      let (bus', w') := sampler_process_inner s.wave bus w0 n
      let loopEnd := if s.adsrEnabled then s.loopEnd else s.length
      -- loopBack = loopStart - loopEnd when adsrEnabled, else 0;
      -- it is zero exactly when ¬adsrEnabled or loopStart = loopEnd
      let loopBackZero := if s.adsrEnabled then s.loopStart = s.loopEnd else True
      let pos := w'.src
      if pos ≥ loopEnd then
        if loopBackZero then
          (bus', { p1 with playing := false }, true)
        else
          (bus', { p1 with pos := wrapPos s.loopStart loopEnd pos, posF := w'.posF }, false)
      else
        (bus', { p1 with pos := pos, posF := w'.posF }, false)

/-- The inner `j`-loop of the mixing pass for one voice:
`steps = SAMPLE_BUFFER_SIZE / ADSR_UPDATE_SAMPLE_COUNT` iterations starting
at step index `j`, stopping early when `mixStep` breaks. -/
def mixVoice (masterVolume : ℚ) (n : Nat) (j : Nat) (bus : List ℚ)
    (p : SamplePlayer) : Nat → List ℚ × SamplePlayer
  | 0 => (bus, p)
  | steps + 1 =>
    let (bus', p', brk) := mixStep masterVolume n bus (j * n) p
    if brk then (bus', p')
    else mixVoice masterVolume n (j + 1) bus' p' steps

/-- The outer voice loop of the mixing pass (Sampler.cpp:317-373): each
voice with `playing = false` is skipped (`continue`) untouched; each
playing voice runs its inner loop from step index 0. -/
def processVoices (masterVolume : ℚ) (n steps : Nat) (bus : List ℚ) :
    List SamplePlayer → List ℚ × List SamplePlayer
  | [] => (bus, [])
  | p :: rest =>
    if p.playing = false then
      let (bus', rest') := processVoices masterVolume n steps bus rest
      (bus', p :: rest')
    else
      let (bus1, p') := mixVoice masterVolume n 0 bus p steps
      let (bus', rest') := processVoices masterVolume n steps bus1 rest
      (bus', p' :: rest')

/-! ## Channel operations (Sampler.cpp:87-168) -/

/-- The voice-allocation loop of `Channel::NoteOn` (Sampler.cpp:98-114):
scan indices from `i` upward; the first voice with `playing = false` wins;
otherwise `oldest` tracks the first index attaining the strictly smallest
`createdAt` seen so far, and is returned when the scan falls off the pool. -/
def allocGo (players : List SamplePlayer) : Nat → Nat → List SamplePlayer → Nat
  | _, oldest, [] => oldest
  | i, oldest, p :: rest =>
    if p.playing = false then i
    else
      let oldest' :=
        if p.createdAt < (players[oldest]?.elim 0 SamplePlayer.createdAt) then i
        else oldest
      allocGo players (i + 1) oldest' rest

/-- The index `Channel::NoteOn` allocates: the scan of `allocGo` started at
`i = 0`, `oldestPlayerId = 0`, with the whole pool still to visit (the last
argument of `allocGo` is `players.drop i`, so `p` is `players[i]`). -/
def allocIdx (players : List SamplePlayer) : Nat := allocGo players 0 0 players

/-- The method `Channel::NoteOn` (Sampler.cpp:87-120) acting on the full sampler state,
for channel index `chIdx` (= `std::distance(&channels[0], this)`).
`alive` is the success of the weak-reference upgrade `sampler.lock()`:
when false, the method returns at once. Out-of-bounds `chIdx` (excluded by
the dispatcher's clamping) is returned unchanged. A channel with no timbre
makes the source dereference a null `shared_ptr` (`timbre->…`), which is
undefined behaviour: the run returns `none`. -/
def noteOnCh (pow2 : ℚ → ℚ) (velocityTable : Nat → ℚ) (alive : Bool)
    (st : SamplerState) (chIdx noteNo velocity : Nat) : Option SamplerState :=
  if alive = false then some st
  else
    match st.channels[chIdx]? with
    | none => some st
    | some ch =>
      match ch.timbre with
      | none => none
      | some tb =>
        let idx := allocIdx st.players
        let newPlayer := SamplePlayer.reset pow2 (tb.GetAppropriateSample noteNo velocity)
          noteNo (velocityTable velocity) ch.pitchBend chIdx st.nextTick
        some { players := st.players.set idx newPlayer
               channels := st.channels.set chIdx
                 { ch with playingNotes := ch.playingNotes ++ [⟨noteNo, idx⟩] }
               nextTick := st.nextTick + 1 }

/-- The `playingNotes` walk of `Channel::NoteOff` (Sampler.cpp:131-144):
entries with matching `noteNo` are erased, and the voice such an entry
references gets `released := true` when its `noteNo` and `channel` still
match; other entries are kept and their voices untouched. Returns the
remaining entries and the updated pool. -/
def noteOffWalk (chIdx noteNo : Nat) (players : List SamplePlayer) :
    List PlayingNote → List PlayingNote × List SamplePlayer
  | [] => ([], players)
  | e :: rest =>
    if e.noteNo = noteNo then
      let players' :=
        match players[e.playerId]? with
        | some p =>
          if p.noteNo = noteNo ∧ p.channel = chIdx then
            players.set e.playerId { p with released := true }
          else players
        | none => players
      noteOffWalk chIdx noteNo players' rest
    else
      let (rest', players') := noteOffWalk chIdx noteNo players rest
      (e :: rest', players')

/-- The method `Channel::NoteOff` (Sampler.cpp:121-146) acting on the full sampler
state. When the weak-reference upgrade fails the method returns at once. -/
def noteOffCh (alive : Bool) (st : SamplerState) (chIdx noteNo : Nat) : SamplerState :=
  if alive = false then st
  else
    match st.channels[chIdx]? with
    | none => st
    | some ch =>
      let (notes', players') := noteOffWalk chIdx noteNo st.players ch.playingNotes
      { st with players := players'
                channels := st.channels.set chIdx { ch with playingNotes := notes' } }

/-- The voice walk of `Channel::PitchBend` (Sampler.cpp:157-166): every
voice referenced from `playingNotes` whose `channel` field still matches
gets the new bend and a pitch recomputation. -/
def bendWalk (pow2 : ℚ → ℚ) (chIdx : Nat) (newBend : ℚ) (players : List SamplePlayer) :
    List PlayingNote → List SamplePlayer
  | [] => players
  | e :: rest =>
    let players' :=
      match players[e.playerId]? with
      | some p =>
        if p.channel = chIdx then
          players.set e.playerId (SamplePlayer.UpdatePitch pow2 { p with pitchBend := newBend })
        else players
      | none => players
    bendWalk pow2 chIdx newBend players' rest

/-- The method `Channel::PitchBend` (Sampler.cpp:147-168) acting on the full sampler
state, with the raw 14-bit bend `b` (an `int16`, already clamped by the
producer). The semitone conversion `pitchBend = b * 12.0f / 8192.0f` is
stored on the channel *before* the weak-reference upgrade is attempted;
only then, when the sampler is alive, are the pool voices updated. -/
def pitchBendCh (pow2 : ℚ → ℚ) (alive : Bool) (st : SamplerState)
    (chIdx : Nat) (b : ℤ) : SamplerState :=
  match st.channels[chIdx]? with
  | none => st
  | some ch =>
    let newBend : ℚ := (b : ℚ) * 12 / 8192
    let ch1 := { ch with pitchBend := newBend }
    if alive = false then
      { st with channels := st.channels.set chIdx ch1 }
    else
      { st with channels := st.channels.set chIdx ch1
                players := bendWalk pow2 chIdx newBend st.players ch1.playingNotes }

/-- What `Channel::PitchBend` does to one matching voice: store the new
bend, then `UpdatePitch` (Sampler.cpp:163-164). -/
def bendApply (pow2 : ℚ → ℚ) (newBend : ℚ) (p : SamplePlayer) : SamplePlayer :=
  SamplePlayer.UpdatePitch pow2 { p with pitchBend := newBend }

/-! ## Concrete fixtures used to exercise the definitions -/

/-- A silent waveform. -/
def wave0 : Nat → ℤ := fun _ => 0

/-- A stand-in for `powf(2, ·)` in concrete runs; the identity shares with
the real function the property that distinct exponents give distinct
pitches. -/
def idQ : ℚ → ℚ := fun q => q

/-- A constant stand-in for `powf(2, ·)` where the value is irrelevant. -/
def oneQ : ℚ → ℚ := fun _ => 1

/-- A constant velocity table. -/
def vt1 : Nat → ℚ := fun _ => 1

/-- A sample with ADSR disabled. -/
def sampleA : Sample :=
  { wave := wave0, length := 8, root := 60, adsrEnabled := false,
    attack := 1, decay := 1, sustain := 1, release := 1/2,
    loopStart := 2, loopEnd := 5 }

/-- The same sample with ADSR enabled (loop 2 ≤ pos < 5). -/
def sampleB : Sample :=
  { wave := wave0, length := 8, root := 60, adsrEnabled := true,
    attack := 1, decay := 1, sustain := 1, release := 1/2,
    loopStart := 2, loopEnd := 5 }

/-- A timbre mapping every note and velocity to `sampleA`. -/
def timbreA : Timbre :=
  { samples := [{ lowerNoteNo := 0, upperNoteNo := 127,
                  lowerVelocity := 0, upperVelocity := 127, sample := sampleA }] }

/-- An idle voice. -/
def idleP : SamplePlayer := SamplePlayer.reset oneQ none 0 0 0 0 0

/-- A fresh channel bound to `timbreA`. -/
def chA : Channel := { timbre := some timbreA, pitchBend := 0, playingNotes := [] }

/-- A fresh sampler state: one idle voice, one channel with a timbre. -/
def stA : SamplerState := { players := [idleP], channels := [chA], nextTick := 0 }

/-- A sampler state whose only channel has no timbre. -/
def stNT : SamplerState :=
  { players := [idleP],
    channels := [{ timbre := none, pitchBend := 0, playingNotes := [] }],
    nextTick := 0 }

/-- A sustaining voice on the ADSR sample, pitched fast enough to overshoot
the whole loop region in one sample. -/
def pSusB : SamplePlayer :=
  { sample := some sampleB, noteNo := 60, volume := 1, pitchBend := 0,
    channel := 0, createdAt := 0, pitch := 12, gain := 1, playing := true,
    released := false, pos := 4, posF := 0, adsrState := AdsrState.sustain }

/-- A released voice on the ADSR sample, caught in the decay segment. -/
def pRelB : SamplePlayer :=
  { pSusB with released := true, adsrState := AdsrState.decay }

/-- A playing voice on the non-ADSR sample with `gain = volume`. -/
def pPlayA : SamplePlayer :=
  { sample := some sampleA, noteNo := 60, volume := 1, pitchBend := 0,
    channel := 0, createdAt := 0, pitch := 1, gain := 1, playing := true,
    released := false, pos := 0, posF := 0, adsrState := AdsrState.attack }

/-- A channel that believes voice 0 is sounding note 60. -/
def chN : Channel :=
  { timbre := some timbreA, pitchBend := 0, playingNotes := [⟨60, 0⟩] }

/-- A sampler state with one playing voice tracked by its channel. -/
def stN : SamplerState := { players := [pPlayA], channels := [chN], nextTick := 1 }

/-- A kernel workspace at phase zero. -/
def cw4 : InnerWork := { src := 0, dst := 0, posF := 0, gain := 5, pitch := 0 }

/-! ## Helper lemmas -/

/-- With a well-formed loop, any fuel at least `pos` lands strictly below
`loopEnd`, and the result differs from the input by a whole number of loop
lengths. -/
theorem wrapGo_spec (loopStart loopEnd : Nat) (hle : loopStart < loopEnd) :
    ∀ fuel pos, pos ≤ fuel →
      wrapGo loopStart loopEnd fuel pos < loopEnd ∧
      ∃ m, pos = wrapGo loopStart loopEnd fuel pos + m * (loopEnd - loopStart) := by
  intro fuel
  induction fuel with
  | zero =>
    intro pos hpos
    have hz : pos = 0 := Nat.le_zero.mp hpos
    subst hz
    exact ⟨by simpa [wrapGo] using Nat.lt_of_le_of_lt (Nat.zero_le _) hle, 0, by simp [wrapGo]⟩
  | succ fuel ih =>
    intro pos hpos
    by_cases hg : loopStart < loopEnd ∧ loopEnd ≤ pos
    · have hrec : pos - (loopEnd - loopStart) ≤ fuel := by omega
      obtain ⟨hlt, m, hm⟩ := ih (pos - (loopEnd - loopStart)) hrec
      refine ⟨by simpa [wrapGo, hg] using hlt, m + 1, ?_⟩
      have hunf : wrapGo loopStart loopEnd (fuel + 1) pos
          = wrapGo loopStart loopEnd fuel (pos - (loopEnd - loopStart)) := by
        simp [wrapGo, hg]
      have hmul : (m + 1) * (loopEnd - loopStart)
          = m * (loopEnd - loopStart) + (loopEnd - loopStart) := by ring
      rw [hunf, hmul]
      omega
    · have hend : ¬ loopEnd ≤ pos := by
        intro hc; exact hg ⟨hle, hc⟩
      refine ⟨?_, 0, ?_⟩
      · simp only [wrapGo, if_neg hg]
        omega
      · simp [wrapGo, hg]

/-- The wrap `wrapPos` lands strictly below `loopEnd` and subtracts a whole number of
loop lengths. -/
theorem wrapPos_spec (loopStart loopEnd pos : Nat) (hle : loopStart < loopEnd) :
    wrapPos loopStart loopEnd pos < loopEnd ∧
    ∃ m, pos = wrapPos loopStart loopEnd pos + m * (loopEnd - loopStart) :=
  wrapGo_spec loopStart loopEnd hle (pos + 1) pos (Nat.le_succ pos)

/-- Unfolding of the allocation scan at index `i`: the suffix argument
`players.drop i` exposes `players[i]`. -/
theorem allocGo_drop (players : List SamplePlayer) (i oldest : Nat) :
    allocGo players i oldest (players.drop i) =
      match players[i]? with
      | none => oldest
      | some p =>
        if p.playing = false then i
        else
          allocGo players (i + 1)
            (if p.createdAt < (players[oldest]?.elim 0 SamplePlayer.createdAt) then i
             else oldest) (players.drop (i + 1)) := by
  rcases hd : players.drop i with _ | ⟨p, rest⟩
  · have hlen : players.length ≤ i := by
      have := congrArg List.length hd
      simp [List.length_drop] at this
      omega
    rw [List.getElem?_eq_none hlen]
    simp [hd, allocGo]
  · have hp : players[i]? = some p := by
      have h0 : (players.drop i)[0]? = some p := by simp [hd]
      rwa [List.getElem?_drop] at h0
    have hrest : players.drop (i + 1) = rest := by
      have : (players.drop i).drop 1 = players.drop (i + 1) := by
        rw [List.drop_drop]
      rw [← this, hd]
      simp
    rw [hp]
    simp [hd, allocGo, hrest]

/-- If `jf` is the first index at or after `i` holding a free voice, the
scan started at `i` returns `jf`. -/
theorem allocGo_of_free (players : List SamplePlayer) :
    ∀ jf i oldest pf, i ≤ jf → players[jf]? = some pf → pf.playing = false →
      (∀ k pk, i ≤ k → k < jf → players[k]? = some pk → pk.playing = true) →
      allocGo players i oldest (players.drop i) = jf := by
  intro jf
  have hmain : ∀ d i oldest pf, jf - i ≤ d → i ≤ jf → players[jf]? = some pf →
      pf.playing = false →
      (∀ k pk, i ≤ k → k < jf → players[k]? = some pk → pk.playing = true) →
      allocGo players i oldest (players.drop i) = jf := by
    intro d
    induction d with
    | zero =>
      intro i oldest pf hd hij hjf hfree _hbtw
      have hij' : i = jf := by omega
      subst hij'
      rw [allocGo_drop, hjf]
      simp [hfree]
    | succ d ih =>
      intro i oldest pf hd hij hjf hfree hbtw
      by_cases heq : i = jf
      · subst heq
        rw [allocGo_drop, hjf]
        simp [hfree]
      · have hlt : i < jf := by omega
        have hjlen : jf < players.length := (List.getElem?_eq_some.mp hjf).1
        have hilen : i < players.length := by omega
        obtain ⟨pi, hpi⟩ : ∃ pi, players[i]? = some pi := by
          exact ⟨players[i], List.getElem?_eq_getElem hilen⟩
        have hplay : pi.playing = true := hbtw i pi (Nat.le_refl i) hlt hpi
        rw [allocGo_drop, hpi]
        simp only [hplay]
        simp only [Bool.true_eq_false, if_false]
        exact ih (i + 1) _ pf (by omega) (by omega) hjf hfree
          (fun k pk hk1 hk2 hpk => hbtw k pk (by omega) hk2 hpk)
  exact fun i oldest pf => hmain (jf - i) i oldest pf (Nat.le_refl _)

/-- If every voice from index `i` on is playing, the scan returns an
in-range index whose `createdAt` is minimal among the already-tracked
`oldest` and everything from `i` on. -/
theorem allocGo_all_playing (players : List SamplePlayer) :
    ∀ d i oldest, players.length - i ≤ d → oldest < players.length →
      (∀ k pk, i ≤ k → players[k]? = some pk → pk.playing = true) →
      allocGo players i oldest (players.drop i) < players.length ∧
      (players[allocGo players i oldest (players.drop i)]?.elim 0 SamplePlayer.createdAt)
          ≤ (players[oldest]?.elim 0 SamplePlayer.createdAt) ∧
      (∀ k pk, i ≤ k → players[k]? = some pk →
        (players[allocGo players i oldest (players.drop i)]?.elim 0 SamplePlayer.createdAt)
          ≤ pk.createdAt) := by
  intro d
  induction d with
  | zero =>
    intro i oldest hd holdest _hplay
    have hlen : players.length ≤ i := by omega
    rw [allocGo_drop, List.getElem?_eq_none hlen]
    refine ⟨holdest, Nat.le_refl _, ?_⟩
    intro k pk hk1 hk2
    have : k < players.length := (List.getElem?_eq_some.mp hk2).1
    omega
  | succ d ih =>
    intro i oldest hd holdest hplay
    by_cases hilen : players.length ≤ i
    · rw [allocGo_drop, List.getElem?_eq_none hilen]
      refine ⟨holdest, Nat.le_refl _, ?_⟩
      intro k pk hk1 hk2
      have : k < players.length := (List.getElem?_eq_some.mp hk2).1
      omega
    · push_neg at hilen
      obtain ⟨pi, hpi⟩ : ∃ pi, players[i]? = some pi :=
        ⟨players[i], List.getElem?_eq_getElem hilen⟩
      have hplayi : pi.playing = true := hplay i pi (Nat.le_refl i) hpi
      rw [allocGo_drop, hpi]
      simp only [hplayi, Bool.true_eq_false, if_false]
      set oldest' := if pi.createdAt < (players[oldest]?.elim 0 SamplePlayer.createdAt)
        then i else oldest with holdest'
      have holdest'lt : oldest' < players.length := by
        rw [holdest']
        split
        · exact hilen
        · exact holdest
      obtain ⟨h1, h2, h3⟩ := ih (i + 1) oldest' (by omega) holdest'lt
        (fun k pk hk1 hk2 => hplay k pk (by omega) hk2)
      have holdelim : (players[oldest']?.elim 0 SamplePlayer.createdAt)
          ≤ (players[oldest]?.elim 0 SamplePlayer.createdAt) ∧
          (players[oldest']?.elim 0 SamplePlayer.createdAt) ≤ pi.createdAt := by
        by_cases hc : pi.createdAt < (players[oldest]?.elim 0 SamplePlayer.createdAt)
        · simp only [holdest', if_pos hc, hpi, Option.elim_some]
          omega
        · simp only [holdest', if_neg hc]
          omega
      refine ⟨h1, le_trans h2 holdelim.1, ?_⟩
      · intro k pk hk1 hk2
        by_cases hki : k = i
        · subst hki
          have hpk : pk = pi := by
            rw [hk2] at hpi
            exact (Option.some.injEq _ _).mp hpi |>.symm ▸ rfl
          rw [hpk]
          exact le_trans h2 holdelim.2
        · exact h3 k pk (by omega) hk2

/-- The `NoteOff` walk keeps exactly the entries whose `noteNo` differs. -/
theorem noteOffWalk_notes (c n : Nat) :
    ∀ (entries : List PlayingNote) (players : List SamplePlayer),
      (noteOffWalk c n players entries).1 = entries.filter (fun e => e.noteNo != n) := by
  intro entries
  induction entries with
  | nil => intro players; simp [noteOffWalk]
  | cons e rest ih =>
    intro players
    by_cases he : e.noteNo = n
    · simp [noteOffWalk, he, ih]
    · simp [noteOffWalk, he, ih]

/-- Pointwise effect of the `NoteOff` walk on the pool: a voice gets
`released := true` exactly when some matching entry references it and its
`noteNo` and `channel` still agree; every other voice is untouched. -/
theorem noteOffWalk_players (c n : Nat) :
    ∀ (entries : List PlayingNote) (players : List SamplePlayer) (j : Nat),
      ((noteOffWalk c n players entries).2)[j]? =
        (players[j]?).map (fun p =>
          if (∃ e ∈ entries, e.noteNo = n ∧ e.playerId = j) ∧ p.noteNo = n ∧ p.channel = c
          then { p with released := true } else p) := by
  intro entries
  induction entries with
  | nil =>
    intro players j
    rcases hj : players[j]? with _ | p
    · simp [noteOffWalk, hj]
    · simp [noteOffWalk, hj]
  | cons e rest ih =>
    intro players j
    by_cases he : e.noteNo = n
    · rcases hpid : players[e.playerId]? with _ | p
      · have hwalk : (noteOffWalk c n players (e :: rest)).2
            = (noteOffWalk c n players rest).2 := by
          simp [noteOffWalk, he, hpid]
        rw [hwalk, ih]
        by_cases hj : e.playerId = j
        · subst hj
          rw [hpid]
          simp
        · congr 1
          funext p
          have : ((∃ e2 ∈ e :: rest, e2.noteNo = n ∧ e2.playerId = j)
              ∧ p.noteNo = n ∧ p.channel = c)
              ↔ ((∃ e2 ∈ rest, e2.noteNo = n ∧ e2.playerId = j)
              ∧ p.noteNo = n ∧ p.channel = c) := by
            constructor
            · rintro ⟨⟨e2, he2mem, he2⟩, hrest⟩
              rcases List.mem_cons.mp he2mem with h | h
              · exact absurd (h ▸ he2.2) hj
              · exact ⟨⟨e2, h, he2⟩, hrest⟩
            · rintro ⟨⟨e2, he2mem, he2⟩, hrest⟩
              exact ⟨⟨e2, List.mem_cons_of_mem _ he2mem, he2⟩, hrest⟩
          rw [if_congr this rfl rfl]
      · by_cases hmatch : p.noteNo = n ∧ p.channel = c
        · have hwalk : (noteOffWalk c n players (e :: rest)).2
              = (noteOffWalk c n (players.set e.playerId { p with released := true }) rest).2 := by
            simp [noteOffWalk, he, hpid, hmatch]
          rw [hwalk, ih]
          by_cases hj : e.playerId = j
          · subst hj
            have hlen : e.playerId < players.length := (List.getElem?_eq_some.mp hpid).1
            rw [List.getElem?_set, if_pos rfl, if_pos hlen, hpid]
            simp only [Option.map_some']
            have hcond : (∃ e2 ∈ e :: rest, e2.noteNo = n ∧ e2.playerId = e.playerId)
                ∧ p.noteNo = n ∧ p.channel = c :=
              ⟨⟨e, List.mem_cons_self e rest, he, rfl⟩, hmatch⟩
            split
            · rfl
            · rfl
          · rw [List.getElem?_set, if_neg hj]
            congr 1
            funext q
            have : ((∃ e2 ∈ e :: rest, e2.noteNo = n ∧ e2.playerId = j)
                ∧ q.noteNo = n ∧ q.channel = c)
                ↔ ((∃ e2 ∈ rest, e2.noteNo = n ∧ e2.playerId = j)
                ∧ q.noteNo = n ∧ q.channel = c) := by
              constructor
              · rintro ⟨⟨e2, he2mem, he2⟩, hrest⟩
                rcases List.mem_cons.mp he2mem with h | h
                · exact absurd (h ▸ he2.2) hj
                · exact ⟨⟨e2, h, he2⟩, hrest⟩
              · rintro ⟨⟨e2, he2mem, he2⟩, hrest⟩
                exact ⟨⟨e2, List.mem_cons_of_mem _ he2mem, he2⟩, hrest⟩
            rw [if_congr this rfl rfl]
        · have hwalk : (noteOffWalk c n players (e :: rest)).2
              = (noteOffWalk c n players rest).2 := by
            simp [noteOffWalk, he, hpid, hmatch]
          rw [hwalk, ih]
          by_cases hj : e.playerId = j
          · subst hj
            rw [hpid]
            simp only [Option.map_some']
            split
            · next hA => exact absurd hA.2 hmatch
            · split
              · next hB => exact absurd hB.2 hmatch
              · rfl
          · congr 1
            funext q
            have : ((∃ e2 ∈ e :: rest, e2.noteNo = n ∧ e2.playerId = j)
                ∧ q.noteNo = n ∧ q.channel = c)
                ↔ ((∃ e2 ∈ rest, e2.noteNo = n ∧ e2.playerId = j)
                ∧ q.noteNo = n ∧ q.channel = c) := by
              constructor
              · rintro ⟨⟨e2, he2mem, he2⟩, hrest⟩
                rcases List.mem_cons.mp he2mem with h | h
                · exact absurd (h ▸ he2.2) hj
                · exact ⟨⟨e2, h, he2⟩, hrest⟩
              · rintro ⟨⟨e2, he2mem, he2⟩, hrest⟩
                exact ⟨⟨e2, List.mem_cons_of_mem _ he2mem, he2⟩, hrest⟩
            rw [if_congr this rfl rfl]
    · have hwalk : (noteOffWalk c n players (e :: rest)).2
          = (noteOffWalk c n players rest).2 := by
        simp [noteOffWalk, he]
      rw [hwalk, ih]
      congr 1
      funext q
      have : ((∃ e2 ∈ e :: rest, e2.noteNo = n ∧ e2.playerId = j)
          ∧ q.noteNo = n ∧ q.channel = c)
          ↔ ((∃ e2 ∈ rest, e2.noteNo = n ∧ e2.playerId = j)
          ∧ q.noteNo = n ∧ q.channel = c) := by
        constructor
        · rintro ⟨⟨e2, he2mem, he2⟩, hrest⟩
          rcases List.mem_cons.mp he2mem with h | h
          · exact absurd (h ▸ he2.1) he
          · exact ⟨⟨e2, h, he2⟩, hrest⟩
        · rintro ⟨⟨e2, he2mem, he2⟩, hrest⟩
          exact ⟨⟨e2, List.mem_cons_of_mem _ he2mem, he2⟩, hrest⟩
      rw [if_congr this rfl rfl]

theorem bendApply_channel (pow2 : ℚ → ℚ) (newBend : ℚ) (p : SamplePlayer) :
    (bendApply pow2 newBend p).channel = p.channel := by
  rcases hs : p.sample with _ | s
  · simp [bendApply, SamplePlayer.UpdatePitch, hs]
  · simp [bendApply, SamplePlayer.UpdatePitch, hs]

theorem bendApply_idem (pow2 : ℚ → ℚ) (newBend : ℚ) (p : SamplePlayer) :
    bendApply pow2 newBend (bendApply pow2 newBend p) = bendApply pow2 newBend p := by
  rcases hs : p.sample with _ | s
  · simp [bendApply, SamplePlayer.UpdatePitch, hs]
  · simp [bendApply, SamplePlayer.UpdatePitch, hs]

/-- Pointwise effect of the `PitchBend` walk on the pool: a voice gets the
new bend and a recomputed pitch exactly when some entry references it and
its `channel` field still matches; every other voice is untouched. -/
theorem bendWalk_players (pow2 : ℚ → ℚ) (c : Nat) (newBend : ℚ) :
    ∀ (entries : List PlayingNote) (players : List SamplePlayer) (j : Nat),
      (bendWalk pow2 c newBend players entries)[j]? =
        (players[j]?).map (fun p =>
          if (∃ e ∈ entries, e.playerId = j) ∧ p.channel = c
          then bendApply pow2 newBend p else p) := by
  intro entries
  induction entries with
  | nil =>
    intro players j
    rcases hj : players[j]? with _ | p
    · simp [bendWalk, hj]
    · simp [bendWalk, hj]
  | cons e rest ih =>
    intro players j
    rcases hpid : players[e.playerId]? with _ | p
    · have hwalk : bendWalk pow2 c newBend players (e :: rest)
          = bendWalk pow2 c newBend players rest := by
        simp [bendWalk, hpid]
      rw [hwalk, ih]
      by_cases hj : e.playerId = j
      · subst hj
        rw [hpid]
        simp
      · congr 1
        funext q
        have hiff : ((∃ e2 ∈ e :: rest, e2.playerId = j) ∧ q.channel = c)
            ↔ ((∃ e2 ∈ rest, e2.playerId = j) ∧ q.channel = c) := by
          constructor
          · rintro ⟨⟨e2, he2mem, he2⟩, hch⟩
            rcases List.mem_cons.mp he2mem with h | h
            · exact absurd (h ▸ he2) hj
            · exact ⟨⟨e2, h, he2⟩, hch⟩
          · rintro ⟨⟨e2, he2mem, he2⟩, hch⟩
            exact ⟨⟨e2, List.mem_cons_of_mem _ he2mem, he2⟩, hch⟩
        rw [if_congr hiff rfl rfl]
    · by_cases hch : p.channel = c
      · have hwalk : bendWalk pow2 c newBend players (e :: rest)
            = bendWalk pow2 c newBend
                (players.set e.playerId (bendApply pow2 newBend p)) rest := by
          simp [bendWalk, hpid, hch, bendApply]
        rw [hwalk, ih]
        by_cases hj : e.playerId = j
        · subst hj
          have hlen : e.playerId < players.length := (List.getElem?_eq_some.mp hpid).1
          rw [List.getElem?_set, if_pos rfl, if_pos hlen, hpid]
          simp only [Option.map_some']
          have hcond : (∃ e2 ∈ e :: rest, e2.playerId = e.playerId) ∧ p.channel = c :=
            ⟨⟨e, List.mem_cons_self e rest, rfl⟩, hch⟩
          have happ : (bendApply pow2 newBend p).channel = c := by
            rw [bendApply_channel]; exact hch
          split
          · next hA => rw [bendApply_idem]
          · next hA => rfl
        · rw [List.getElem?_set, if_neg hj]
          congr 1
          funext q
          have hiff : ((∃ e2 ∈ e :: rest, e2.playerId = j) ∧ q.channel = c)
              ↔ ((∃ e2 ∈ rest, e2.playerId = j) ∧ q.channel = c) := by
            constructor
            · rintro ⟨⟨e2, he2mem, he2⟩, hch2⟩
              rcases List.mem_cons.mp he2mem with h | h
              · exact absurd (h ▸ he2) hj
              · exact ⟨⟨e2, h, he2⟩, hch2⟩
            · rintro ⟨⟨e2, he2mem, he2⟩, hch2⟩
              exact ⟨⟨e2, List.mem_cons_of_mem _ he2mem, he2⟩, hch2⟩
          rw [if_congr hiff rfl rfl]
      · have hwalk : bendWalk pow2 c newBend players (e :: rest)
            = bendWalk pow2 c newBend players rest := by
          simp [bendWalk, hpid, hch]
        rw [hwalk, ih]
        by_cases hj : e.playerId = j
        · subst hj
          rw [hpid]
          simp only [Option.map_some']
          split
          · next hA => exact absurd hA.2 hch
          · split
            · next hB => exact absurd hB.2 hch
            · rfl
        · congr 1
          funext q
          have hiff : ((∃ e2 ∈ e :: rest, e2.playerId = j) ∧ q.channel = c)
              ↔ ((∃ e2 ∈ rest, e2.playerId = j) ∧ q.channel = c) := by
            constructor
            · rintro ⟨⟨e2, he2mem, he2⟩, hch2⟩
              rcases List.mem_cons.mp he2mem with h | h
              · exact absurd (h ▸ he2) hj
              · exact ⟨⟨e2, h, he2⟩, hch2⟩
            · rintro ⟨⟨e2, he2mem, he2⟩, hch2⟩
              exact ⟨⟨e2, List.mem_cons_of_mem _ he2mem, he2⟩, hch2⟩
          rw [if_congr hiff rfl rfl]

/-- The integer-extract renormalisation of the kernel: for a nonnegative
phase `q`, subtracting the `uint32` cast of `q` leaves the fractional part,
which lies in `[0, 1)`. -/
theorem fracStep_bounds (q : ℚ) (hq : 0 ≤ q) :
    0 ≤ q - (((Rat.floor q).toNat : ℕ) : ℚ) ∧ q - (((Rat.floor q).toNat : ℕ) : ℚ) < 1 := by
  have hfl : Rat.floor q = ⌊q⌋ := rfl
  have hnn : (0 : ℤ) ≤ ⌊q⌋ := Int.floor_nonneg.mpr hq
  have hcast : (((Rat.floor q).toNat : ℕ) : ℚ) = ((⌊q⌋ : ℤ) : ℚ) := by
    rw [hfl, ← Int.cast_natCast, Int.toNat_of_nonneg hnn]
  constructor
  · rw [hcast, Int.self_sub_floor]
    exact Int.fract_nonneg q
  · rw [hcast, Int.self_sub_floor]
    exact Int.fract_lt_one q

/-- Full characterisation of the kernel loop: output samples `k < len` are
accumulated with the interpolated values of the phase recurrence, the rest
of the bus is untouched, `src`/`dst`/`pos_f` are advanced per the
recurrence, `gain` and `pitch` are unchanged, and a nonnegative `pitch`
keeps the returned fractional phase in `[0, 1)` (after at least one
sample). -/
theorem sampler_process_inner_spec (wave : Nat → ℤ) :
    ∀ (len : Nat) (bus : List ℚ) (w : InnerWork), 0 ≤ w.posF → 0 ≤ w.pitch →
      (∀ k, k < len → (sampler_process_inner wave bus w len).1[w.dst + k]? =
          (bus[w.dst + k]?).map
            (fun x => x + interpVal wave (phase w.pitch (w.src, w.posF) k) * w.gain))
      ∧ (∀ i, i < w.dst ∨ w.dst + len ≤ i →
          (sampler_process_inner wave bus w len).1[i]? = bus[i]?)
      ∧ (sampler_process_inner wave bus w len).2.src
          = (phase w.pitch (w.src, w.posF) len).1
      ∧ (sampler_process_inner wave bus w len).2.posF
          = (phase w.pitch (w.src, w.posF) len).2
      ∧ (sampler_process_inner wave bus w len).2.dst = w.dst + len
      ∧ (sampler_process_inner wave bus w len).2.gain = w.gain
      ∧ (sampler_process_inner wave bus w len).2.pitch = w.pitch
      ∧ 0 ≤ (sampler_process_inner wave bus w len).2.posF
      ∧ (1 ≤ len → (sampler_process_inner wave bus w len).2.posF < 1) := by
  intro len
  induction len with
  | zero =>
    intro bus w hpos _hpitch
    refine ⟨?_, ?_, ?_, ?_, ?_, rfl, rfl, ?_, ?_⟩
    · intro k hk; omega
    · intro i _; rfl
    · rfl
    · rfl
    · simp [sampler_process_inner]
    · exact hpos
    · intro h; omega
  | succ len ih =>
    intro bus w hpos hpitch
    -- the first iteration of the do-loop
    have hq : (0 : ℚ) ≤ w.posF + w.pitch := by linarith
    obtain ⟨hfrac0, hfrac1⟩ := fracStep_bounds (w.posF + w.pitch) hq
    set intval : Nat := (Rat.floor (w.posF + w.pitch)).toNat with hintval
    set bus1 : List ℚ := bus.set w.dst
      (bus.getD w.dst 0 + interpVal wave (w.src, w.posF) * w.gain) with hbus1
    set w1 : InnerWork :=
      { w with src := w.src + intval, dst := w.dst + 1,
               posF := w.posF + w.pitch - (intval : ℚ) } with hw1
    have hunf : sampler_process_inner wave bus w (len + 1)
        = sampler_process_inner wave bus1 w1 len := by
      simp only [sampler_process_inner, innerStep, interpVal, hbus1, hw1, hintval]
    have hphase : ∀ k, phase w.pitch (w.src, w.posF) (k + 1)
        = phase w.pitch (w1.src, w1.posF) k := by
      intro k
      simp only [phase, hw1, hintval]
    obtain ⟨ih1, ih2, ih3, ih4, ih5, ih6, ih7, ih8, ih9⟩ :=
      ih bus1 w1 (by simpa [hw1] using hfrac0) (by simpa [hw1] using hpitch)
    rw [hunf]
    refine ⟨?_, ?_, ?_, ?_, ?_, ih6, ih7, ih8, ?_⟩
    · intro k hk
      match k with
      | 0 =>
        have hfr : (sampler_process_inner wave bus1 w1 len).1[w.dst + 0]? = bus1[w.dst + 0]? := by
          apply ih2
          left
          simp [hw1]
        rw [hfr]
        rcases hlt : bus[w.dst]? with _ | x
        · have : bus.length ≤ w.dst := by
            by_contra hc
            push_neg at hc
            rw [List.getElem?_eq_getElem hc] at hlt
            cases hlt
          simp only [Nat.add_zero, hbus1]
          rw [List.getElem?_eq_none (by simpa using this), hlt]
          rfl
        · have hc : w.dst < bus.length := (List.getElem?_eq_some.mp hlt).1
          simp only [Nat.add_zero, hbus1]
          rw [List.getElem?_set, if_pos rfl, if_pos hc, hlt]
          simp only [Option.map_some']
          have hgetD : bus.getD w.dst 0 = x := by
            rw [List.getD_eq_getElem?_getD, hlt]
            rfl
          rw [hgetD]
          rfl
      | k + 1 =>
        have harr : w.dst + (k + 1) = w1.dst + k := by simp [hw1]; omega
        have hne : bus1[w1.dst + k]? = bus[w1.dst + k]? := by
          rw [hbus1, List.getElem?_set, if_neg (by simp [hw1]; omega)]
        rw [harr, ih1 k (by omega), hne, ← hphase k]
    · intro i hi
      have hfr : (sampler_process_inner wave bus1 w1 len).1[i]? = bus1[i]? := by
        apply ih2
        rcases hi with h | h
        · left; simp [hw1]; omega
        · right; simp [hw1]; omega
      rw [hfr, hbus1, List.getElem?_set, if_neg (by omega)]
    · rw [ih3, ← hphase len]
    · rw [ih4, ← hphase len]
    · rw [ih5]
      simp [hw1]
      omega
    · intro _
      match hlen : len with
      | 0 =>
        simp only [sampler_process_inner]
        simpa [hw1] using hfrac1
      | _ + 1 =>
        exact ih9 (by omega)

/-- One mixing iteration of a voice whose sample has ADSR disabled never
touches `gain`, `volume` or `sample`, and switches `playing` off only after
a kernel run that ended at or past the end of the sample. -/
theorem mixStep_nonAdsr (mv : ℚ) (n : Nat) (bus : List ℚ) (dstBase : Nat)
    (p : SamplePlayer) (s : Sample) (hs : p.sample = some s)
    (hadsr : s.adsrEnabled = false) :
    (mixStep mv n bus dstBase p).2.1.gain = p.gain ∧
    (mixStep mv n bus dstBase p).2.1.volume = p.volume ∧
    (mixStep mv n bus dstBase p).2.1.sample = some s ∧
    (p.playing = true → (mixStep mv n bus dstBase p).2.1.playing = false →
      (sampler_process_inner s.wave bus
        { src := p.pos, dst := dstBase, posF := p.posF,
          gain := p.gain * (mv * 65536), pitch := p.pitch } n).2.src ≥ s.length) := by
  refine ⟨?_, ?_, ?_, ?_⟩
  · by_cases hplay : p.playing = false
    · simp [mixStep, hs, hadsr, hplay]
    · simp only [Bool.not_eq_false] at hplay
      simp only [mixStep, hs, hadsr, Bool.false_eq_true, Bool.true_eq_false, if_false, hplay, if_true]
      split
      · rfl
      · rfl
  · by_cases hplay : p.playing = false
    · simp [mixStep, hs, hadsr, hplay]
    · simp only [Bool.not_eq_false] at hplay
      simp only [mixStep, hs, hadsr, Bool.false_eq_true, Bool.true_eq_false, if_false, hplay, if_true]
      split
      · rfl
      · rfl
  · by_cases hplay : p.playing = false
    · simp [mixStep, hs, hadsr, hplay]
    · simp only [Bool.not_eq_false] at hplay
      simp only [mixStep, hs, hadsr, Bool.false_eq_true, Bool.true_eq_false, if_false, hplay, if_true]
      split
      · rfl
      · rfl
  · intro hplay hoff
    simp only [mixStep, hs, hadsr, Bool.false_eq_true, Bool.true_eq_false, if_false, hplay, if_true] at hoff
    rcases hpos : (decide ((sampler_process_inner s.wave bus
        { src := p.pos, dst := dstBase, posF := p.posF,
          gain := p.gain * (mv * 65536), pitch := p.pitch } n).2.src ≥ s.length)) with _ | _
    · have hpos' : ¬ ((sampler_process_inner s.wave bus
          { src := p.pos, dst := dstBase, posF := p.posF,
            gain := p.gain * (mv * 65536), pitch := p.pitch } n).2.src ≥ s.length) :=
        of_decide_eq_false hpos
      rw [if_neg hpos'] at hoff
      simp [hplay] at hoff
    · exact of_decide_eq_true hpos

/-- The whole inner loop of the mixing pass preserves `gain`, `volume` and
`sample` of a voice whose sample has ADSR disabled. -/
theorem mixVoice_nonAdsr (mv : ℚ) (n : Nat) (s : Sample) (hadsr : s.adsrEnabled = false) :
    ∀ (steps j : Nat) (bus : List ℚ) (p : SamplePlayer), p.sample = some s →
      (mixVoice mv n j bus p steps).2.gain = p.gain ∧
      (mixVoice mv n j bus p steps).2.volume = p.volume ∧
      (mixVoice mv n j bus p steps).2.sample = some s := by
  intro steps
  induction steps with
  | zero => intro j bus p hp; exact ⟨rfl, rfl, hp⟩
  | succ steps ih =>
    intro j bus p hp
    obtain ⟨hg, hv, hsamp, _⟩ := mixStep_nonAdsr mv n bus (j * n) p s hp hadsr
    rcases hstep : mixStep mv n bus (j * n) p with ⟨bus', p', brk⟩
    rw [hstep] at hg hv hsamp
    simp only at hg hv hsamp
    by_cases hbrk : brk = true
    · subst hbrk
      simp only [mixVoice, hstep]
      exact ⟨hg, hv, hsamp⟩
    · have hbrk' : brk = false := by
        cases brk
        · rfl
        · exact absurd rfl hbrk
      subst hbrk'
      simp only [mixVoice, hstep, Bool.false_eq_true, if_false]
      obtain ⟨hg2, hv2, hs2⟩ := ih (j + 1) bus' p' hsamp
      exact ⟨hg2.trans hg, hv2.trans hv, hs2⟩

/-- A voice with `playing = false` is skipped by the outer loop of the
mixing pass: the bus and the voice are passed through untouched. -/
theorem processVoices_skip (mv : ℚ) (n steps : Nat) (bus : List ℚ)
    (p : SamplePlayer) (rest : List SamplePlayer) (h : p.playing = false) :
    processVoices mv n steps bus (p :: rest)
      = ((processVoices mv n steps bus rest).1,
         p :: (processVoices mv n steps bus rest).2) := by
  simp [processVoices, h]

/-! ## Claims -/

/-- C4: for a kernel invocation with `length ≥ 1`, `pitch ≥ 0` and
`0 ≤ pos_f < 1`: every output sample `k` is accumulated additively as
`dst[k] += (src[0] + (src[1] - src[0]) * pos_f) * gain` at the current
phase, the phase advances by the `pos_f += pitch` / integer-extract
recurrence, the rest of the bus is untouched, and on return the updated
`src` and `pos_f` (again in `[0,1)`) are written back to the work record
while `gain` and `pitch` are unchanged. -/
theorem spec_C4 (wave : Nat → ℤ) (bus : List ℚ) (w : InnerWork) (len : Nat)
    (hlen : 1 ≤ len) (h0 : 0 ≤ w.posF) (_h1 : w.posF < 1) (hpitch : 0 ≤ w.pitch) :
    (∀ k, k < len →
      (sampler_process_inner wave bus w len).1[w.dst + k]? =
        (bus[w.dst + k]?).map
          (fun x => x + interpVal wave (phase w.pitch (w.src, w.posF) k) * w.gain)) ∧
    (∀ i, i < w.dst ∨ w.dst + len ≤ i →
      (sampler_process_inner wave bus w len).1[i]? = bus[i]?) ∧
    (sampler_process_inner wave bus w len).2.src = (phase w.pitch (w.src, w.posF) len).1 ∧
    (sampler_process_inner wave bus w len).2.posF = (phase w.pitch (w.src, w.posF) len).2 ∧
    0 ≤ (sampler_process_inner wave bus w len).2.posF ∧
    (sampler_process_inner wave bus w len).2.posF < 1 ∧
    (sampler_process_inner wave bus w len).2.gain = w.gain ∧
    (sampler_process_inner wave bus w len).2.pitch = w.pitch ∧
    (sampler_process_inner wave bus w len).2.dst = w.dst + len := by
  obtain ⟨ha, hb, hc, hd, he, hf, hg, hh, hi⟩ :=
    sampler_process_inner_spec wave len bus w h0 hpitch
  exact ⟨ha, hb, hc, hd, hh, hi hlen, hf, hg, he⟩

theorem spec_C4_witness :
    (1 : Nat) ≤ 1 ∧ (0 : ℚ) ≤ cw4.posF ∧ cw4.posF < 1 ∧ (0 : ℚ) ≤ cw4.pitch ∧
    (sampler_process_inner wave0 [0, 0] cw4 1).2.gain = cw4.gain := by
  have h := spec_C4 wave0 [0, 0] cw4 1 (le_refl 1) (le_refl 0) zero_lt_one (le_refl 0)
  exact ⟨le_refl 1, le_refl 0, zero_lt_one, le_refl 0, h.2.2.2.2.2.2.1⟩

/-- C5: on a voice with a present, ADSR-enabled sample and `released` set,
`UpdateGain` forces the segment to `release` before the switch, replaces
`gain` by `gain * sample.release`, and when the result drops below `0.001`
sets `gain = 0` and `playing = false`. -/
theorem spec_C5 (p : SamplePlayer) (s : Sample) (hs : p.sample = some s)
    (hadsr : s.adsrEnabled = true) (hrel : p.released = true) :
    p.UpdateGain.adsrState = AdsrState.release ∧
    p.UpdateGain.gain = (if p.gain * s.release < 1/1000 then 0 else p.gain * s.release) ∧
    p.UpdateGain.playing = (if p.gain * s.release < 1/1000 then false else p.playing) := by
  simp only [SamplePlayer.UpdateGain, hs, hadsr, hrel, not_true, if_false, if_true]
  split
  · next h => exact ⟨rfl, by simp [h], by simp [h]⟩
  · next h => exact ⟨rfl, by simp [h], by simp [h]⟩

theorem spec_C5_witness :
    pRelB.sample = some sampleB ∧ sampleB.adsrEnabled = true ∧ pRelB.released = true ∧
    (pRelB.UpdateGain.adsrState = AdsrState.release ∧
     pRelB.UpdateGain.gain =
       (if pRelB.gain * sampleB.release < 1/1000 then 0 else pRelB.gain * sampleB.release) ∧
     pRelB.UpdateGain.playing =
       (if pRelB.gain * sampleB.release < 1/1000 then false else pRelB.playing)) :=
  ⟨rfl, rfl, rfl, spec_C5 pRelB sampleB rfl rfl rfl⟩

/-- C6: a voice playing a sample with `adsrEnabled = false` has
`gain = volume` from allocation (where the reset establishes it) through
every envelope step of the mixing pass, and its `playing` flag is cleared
only by a kernel run that reached the end of the sample. -/
theorem spec_C6 (s : Sample) (hadsr : s.adsrEnabled = false) :
    (∀ (pow2 : ℚ → ℚ) (note : Nat) (vol bend : ℚ) (c t : Nat),
      (SamplePlayer.reset pow2 (some s) note vol bend c t).gain = vol ∧
      (SamplePlayer.reset pow2 (some s) note vol bend c t).playing = true) ∧
    (∀ (mv : ℚ) (n steps j : Nat) (bus : List ℚ) (p : SamplePlayer),
      p.sample = some s → p.gain = p.volume →
      (mixVoice mv n j bus p steps).2.gain = (mixVoice mv n j bus p steps).2.volume) ∧
    (∀ (mv : ℚ) (n : Nat) (bus : List ℚ) (dstBase : Nat) (p : SamplePlayer),
      p.sample = some s → p.playing = true →
      (mixStep mv n bus dstBase p).2.1.playing = false →
      (sampler_process_inner s.wave bus
        { src := p.pos, dst := dstBase, posF := p.posF,
          gain := p.gain * (mv * 65536), pitch := p.pitch } n).2.src ≥ s.length) := by
  refine ⟨?_, ?_, ?_⟩
  · intro pow2 note vol bend c t
    constructor
    · simp [SamplePlayer.reset, hadsr]
    · simp [SamplePlayer.reset]
  · intro mv n steps j bus p hp hgv
    obtain ⟨hg, hv, _⟩ := mixVoice_nonAdsr mv n s hadsr steps j bus p hp
    rw [hg, hv, hgv]
  · intro mv n bus dstBase p hp hplay
    exact (mixStep_nonAdsr mv n bus dstBase p s hp hadsr).2.2.2 hplay

theorem spec_C6_witness :
    sampleA.adsrEnabled = false ∧
    (mixVoice 1 1 0 [0] pPlayA 2).2.gain = (mixVoice 1 1 0 [0] pPlayA 2).2.volume :=
  ⟨rfl, (spec_C6 sampleA rfl).2.1 1 1 2 0 [0] pPlayA rfl rfl⟩

/-- C1: a `NoteOn` dispatched to a channel with the sampler alive performs
the single-pass allocation scan: the chosen index is the lowest-index voice
with `playing = false` when one exists; when every voice is playing it is a
voice of minimal `createdAt`; and the chosen voice is unconditionally
overwritten with the reset built from the new sample, note, velocity
volume, the channel's pitch bend and the channel index. -/
theorem spec_C1 (pow2 : ℚ → ℚ) (velocityTable : Nat → ℚ) (st : SamplerState)
    (chIdx noteNo velocity : Nat) (ch : Channel) (tb : Timbre)
    (hch : st.channels[chIdx]? = some ch) (htb : ch.timbre = some tb)
    (hne : 0 < st.players.length) :
    noteOnCh pow2 velocityTable true st chIdx noteNo velocity = some
      { players := st.players.set (allocIdx st.players)
          (SamplePlayer.reset pow2 (tb.GetAppropriateSample noteNo velocity) noteNo
            (velocityTable velocity) ch.pitchBend chIdx st.nextTick),
        channels := st.channels.set chIdx
          { ch with playingNotes := ch.playingNotes ++ [⟨noteNo, allocIdx st.players⟩] },
        nextTick := st.nextTick + 1 } ∧
    (∀ (jf : Nat) (pf : SamplePlayer), st.players[jf]? = some pf → pf.playing = false →
      (∀ (k : Nat) (pk : SamplePlayer), k < jf → st.players[k]? = some pk →
        pk.playing = true) →
      allocIdx st.players = jf) ∧
    ((∀ (k : Nat) (pk : SamplePlayer), st.players[k]? = some pk → pk.playing = true) →
      allocIdx st.players < st.players.length ∧
      (∀ (k : Nat) (pk : SamplePlayer), st.players[k]? = some pk →
        (st.players[allocIdx st.players]?.elim 0 SamplePlayer.createdAt) ≤ pk.createdAt)) := by
  refine ⟨?_, ?_, ?_⟩
  · simp [noteOnCh, hch, htb]
  · intro jf pf hjf hfree hbtw
    have h := allocGo_of_free st.players jf 0 0 pf (Nat.zero_le jf) hjf hfree
      (fun k pk _ hk2 hpk => hbtw k pk hk2 hpk)
    simpa [allocIdx, List.drop_zero] using h
  · intro hall
    obtain ⟨h1, _h2, h3⟩ := allocGo_all_playing st.players st.players.length 0 0
      (by omega) hne (fun k pk _ hpk => hall k pk hpk)
    constructor
    · simpa [allocIdx, List.drop_zero] using h1
    · intro k pk hpk
      have := h3 k pk (Nat.zero_le k) hpk
      simpa [allocIdx, List.drop_zero] using this

theorem spec_C1_witness :
    stN.channels[0]? = some chN ∧ chN.timbre = some timbreA ∧ 0 < stN.players.length ∧
    allocIdx stN.players < stN.players.length := by
  have h := spec_C1 idQ vt1 stN 0 60 100 chN timbreA rfl rfl (by decide)
  have hall : ∀ (k : Nat) (pk : SamplePlayer), stN.players[k]? = some pk →
      pk.playing = true := by
    intro k pk hpk
    match k with
    | 0 =>
      have hpp : pPlayA = pk := by simpa [stN] using hpk
      rw [← hpp]
      rfl
    | Nat.succ m =>
      simp [stN] at hpk
  exact ⟨rfl, rfl, by decide, (h.2.2 hall).1⟩

/-- C2: with the sampler alive, `NoteOff(noteNo)` erases from the channel's
`playingNotes` exactly the entries whose `noteNo` matches, and the voice an
erased entry references gets `released := true` precisely when its `noteNo`
and `channel` fields still match the channel (not stolen); all other
entries and voices are unchanged. -/
theorem spec_C2 (st : SamplerState) (chIdx noteNo : Nat) (ch : Channel)
    (hch : st.channels[chIdx]? = some ch) :
    noteOffCh true st chIdx noteNo =
      { st with
          players := (noteOffWalk chIdx noteNo st.players ch.playingNotes).2,
          channels := st.channels.set chIdx
            { ch with playingNotes :=
                ch.playingNotes.filter (fun e => e.noteNo != noteNo) } } ∧
    (∀ j, ((noteOffWalk chIdx noteNo st.players ch.playingNotes).2)[j]? =
      (st.players[j]?).map (fun p =>
        if (∃ e ∈ ch.playingNotes, e.noteNo = noteNo ∧ e.playerId = j)
            ∧ p.noteNo = noteNo ∧ p.channel = chIdx
        then { p with released := true } else p)) := by
  constructor
  · simp only [noteOffCh, hch, Bool.true_eq_false, if_false]
    rw [noteOffWalk_notes]
  · intro j
    exact noteOffWalk_players chIdx noteNo ch.playingNotes st.players j

theorem spec_C2_witness :
    stN.channels[0]? = some chN ∧
    (∀ j, ((noteOffWalk 0 60 stN.players chN.playingNotes).2)[j]? =
      (stN.players[j]?).map (fun p =>
        if (∃ e ∈ chN.playingNotes, e.noteNo = 60 ∧ e.playerId = j)
            ∧ p.noteNo = 60 ∧ p.channel = 0
        then { p with released := true } else p)) :=
  ⟨rfl, (spec_C2 stN 0 60 chN rfl).2⟩

/-- C10: every completed alive `NoteOn` appends exactly one
`(noteNo, voiceId)` entry to its channel's `playingNotes` — with no
hypothesis on whether the timbre matched — other channels' lists are
untouched; `PitchBend` never changes any `playingNotes`; and `NoteOff`
removes exactly the matching-`noteNo` entries of its own channel. -/
theorem spec_C10 (pow2 : ℚ → ℚ) (vt : Nat → ℚ) (st : SamplerState)
    (chIdx noteNo velocity : Nat) (ch : Channel) (tb : Timbre)
    (hch : st.channels[chIdx]? = some ch) (htb : ch.timbre = some tb) :
    (∃ st', noteOnCh pow2 vt true st chIdx noteNo velocity = some st' ∧
      (st'.channels[chIdx]?).map Channel.playingNotes
        = some (ch.playingNotes ++ [⟨noteNo, allocIdx st.players⟩]) ∧
      (∀ i, i ≠ chIdx → st'.channels[i]? = st.channels[i]?)) ∧
    (∀ (al : Bool) (st2 : SamplerState) (c2 : Nat) (b : ℤ) (i : Nat),
      ((pitchBendCh pow2 al st2 c2 b).channels[i]?).map Channel.playingNotes
        = (st2.channels[i]?).map Channel.playingNotes) ∧
    (∀ (st2 : SamplerState) (c2 n2 : Nat) (ch2 : Channel),
      st2.channels[c2]? = some ch2 →
      ((noteOffCh true st2 c2 n2).channels[c2]?).map Channel.playingNotes
        = some (ch2.playingNotes.filter (fun e => e.noteNo != n2)) ∧
      (∀ i, i ≠ c2 → (noteOffCh true st2 c2 n2).channels[i]? = st2.channels[i]?)) := by
  have hchlen : chIdx < st.channels.length := (List.getElem?_eq_some.mp hch).1
  refine ⟨⟨{ players :=
                st.players.set (allocIdx st.players)
                  (SamplePlayer.reset pow2 (tb.GetAppropriateSample noteNo velocity)
                    noteNo (vt velocity) ch.pitchBend chIdx st.nextTick),
             channels :=
               st.channels.set chIdx
                 { ch with
                     playingNotes :=
                       ch.playingNotes ++ [⟨noteNo, allocIdx st.players⟩] },
             nextTick := st.nextTick + 1 },
           by simp [noteOnCh, hch, htb], ?_, ?_⟩, ?_, ?_⟩
  · simp only []
    rw [List.getElem?_set, if_pos rfl, if_pos (by simpa using hchlen)]
    rfl
  · intro i hi
    simp only []
    rw [List.getElem?_set, if_neg (fun hc => hi hc.symm)]
  · intro al st2 c2 b i
    rcases hch2 : st2.channels[c2]? with _ | ch2
    · simp [pitchBendCh, hch2]
    · have hc2len : c2 < st2.channels.length := (List.getElem?_eq_some.mp hch2).1
      by_cases hic : i = c2
      · subst hic
        rcases al with _ | _
        · simp only [pitchBendCh, hch2, eq_self_iff_true, if_true]
          rw [List.getElem?_set, if_pos rfl, if_pos (by simpa using hc2len)]
          rfl
        · simp only [pitchBendCh, hch2, Bool.true_eq_false, if_false]
          rw [List.getElem?_set, if_pos rfl, if_pos (by simpa using hc2len)]
          rfl
      · rcases al with _ | _
        · simp only [pitchBendCh, hch2, eq_self_iff_true, if_true]
          rw [List.getElem?_set, if_neg (fun hc => hic hc.symm)]
        · simp only [pitchBendCh, hch2, Bool.true_eq_false, if_false]
          rw [List.getElem?_set, if_neg (fun hc => hic hc.symm)]
  · intro st2 c2 n2 ch2 hch2
    have hc2len : c2 < st2.channels.length := (List.getElem?_eq_some.mp hch2).1
    constructor
    · simp only [noteOffCh, hch2, Bool.true_eq_false, if_false]
      rw [List.getElem?_set, if_pos rfl, if_pos (by simpa using hc2len)]
      simp only [Option.map_some']
      rw [noteOffWalk_notes]
    · intro i hi
      simp only [noteOffCh, hch2, Bool.true_eq_false, if_false]
      rw [List.getElem?_set, if_neg (fun hc => hi hc.symm)]

theorem spec_C10_witness :
    stA.channels[0]? = some chA ∧ chA.timbre = some timbreA ∧
    ((pitchBendCh idQ true stA 0 5).channels[0]?).map Channel.playingNotes
      = (stA.channels[0]?).map Channel.playingNotes :=
  ⟨rfl, rfl, (spec_C10 idQ vt1 stA 0 60 100 chA timbreA rfl rfl).2.1 true stA 0 5 0⟩

/-- C9 (amended): when the weak back-reference cannot be upgraded, `NoteOn`
and `NoteOff` are complete no-ops, and `PitchBend` touches neither the
voice pool nor the tick nor any `playingNotes` — but it does store the
converted bend `b * 12 / 8192` on the channel before the upgrade attempt. -/
theorem spec_C9 (pow2 : ℚ → ℚ) (vt : Nat → ℚ) (st : SamplerState)
    (c n v : Nat) (b : ℤ) (ch : Channel) (hch : st.channels[c]? = some ch) :
    noteOnCh pow2 vt false st c n v = some st ∧
    noteOffCh false st c n = st ∧
    (pitchBendCh pow2 false st c b).players = st.players ∧
    (pitchBendCh pow2 false st c b).nextTick = st.nextTick ∧
    (pitchBendCh pow2 false st c b).channels
      = st.channels.set c { ch with pitchBend := (b : ℚ) * 12 / 8192 } := by
  refine ⟨by simp [noteOnCh], by simp [noteOffCh], ?_, ?_, ?_⟩
  · simp [pitchBendCh, hch]
  · simp [pitchBendCh, hch]
  · simp [pitchBendCh, hch]

theorem spec_C9_witness :
    stA.channels[0]? = some chA ∧
    noteOnCh idQ vt1 false stA 0 60 100 = some stA ∧
    noteOffCh false stA 0 60 = stA :=
  ⟨rfl, (spec_C9 idQ vt1 stA 0 60 100 5 chA rfl).1,
    (spec_C9 idQ vt1 stA 0 60 100 5 chA rfl).2.1⟩

/-- C9 counterexample: with the sampler freed, `PitchBend(8192)` on a fresh
channel is not a no-op — it changes the channel's stored `pitchBend` from
`0` to `12`, contradicting "returns without modifying any channel state
(including the channel's stored pitchBend)". -/
theorem spec_C9_counterexample :
    ((pitchBendCh idQ false stA 0 8192).channels[0]?).map Channel.pitchBend
      ≠ (stA.channels[0]?).map Channel.pitchBend := by
  have h1 : ((pitchBendCh idQ false stA 0 8192).channels[0]?).map Channel.pitchBend
      = some (((8192 : ℤ) : ℚ) * 12 / 8192) := by
    simp [pitchBendCh, stA, chA]
  have h2 : (stA.channels[0]?).map Channel.pitchBend = some 0 := by
    simp [stA, chA]
  rw [h1, h2]
  intro h
  have h3 := Option.some.inj h
  norm_num at h3

/-- C8 (amended): an alive `NoteOn` on a channel whose timbre is present
but yields no matching sample completes, resets the chosen voice to an
idle state — `playing = false`, no sample — and such an idle voice is
skipped untouched by the mixing pass, contributing nothing to the bus.
(When the timbre itself is absent, the source instead dereferences a null
`shared_ptr`; see the counterexample.) -/
theorem spec_C8 (pow2 : ℚ → ℚ) (vt : Nat → ℚ) (st : SamplerState)
    (c n v : Nat) (ch : Channel) (tb : Timbre)
    (hch : st.channels[c]? = some ch) (htb : ch.timbre = some tb)
    (hmatch : tb.GetAppropriateSample n v = none) :
    (∃ st', noteOnCh pow2 vt true st c n v = some st' ∧
      st'.players = st.players.set (allocIdx st.players)
        (SamplePlayer.reset pow2 none n (vt v) ch.pitchBend c st.nextTick)) ∧
    (SamplePlayer.reset pow2 none n (vt v) ch.pitchBend c st.nextTick).playing = false ∧
    (SamplePlayer.reset pow2 none n (vt v) ch.pitchBend c st.nextTick).sample = none ∧
    (∀ (q : SamplePlayer), q.playing = false →
      ∀ (mv : ℚ) (nn steps : Nat) (bus : List ℚ) (rest : List SamplePlayer),
        processVoices mv nn steps bus (q :: rest)
          = ((processVoices mv nn steps bus rest).1,
             q :: (processVoices mv nn steps bus rest).2)) := by
  refine ⟨⟨{ players :=
                st.players.set (allocIdx st.players)
                  (SamplePlayer.reset pow2 (tb.GetAppropriateSample n v)
                    n (vt v) ch.pitchBend c st.nextTick),
             channels :=
               st.channels.set c
                 { ch with
                     playingNotes := ch.playingNotes ++ [⟨n, allocIdx st.players⟩] },
             nextTick := st.nextTick + 1 },
           by simp [noteOnCh, hch, htb], ?_⟩, rfl, rfl, ?_⟩
  · simp only []
    rw [hmatch]
  · intro q hq mv nn steps bus rest
    exact processVoices_skip mv nn steps bus q rest hq

theorem spec_C8_witness :
    stA.channels[0]? = some chA ∧ chA.timbre = some timbreA ∧
    timbreA.GetAppropriateSample 200 100 = none ∧
    (SamplePlayer.reset idQ none 200 (vt1 100) chA.pitchBend 0 stA.nextTick).playing
      = false := by
  have h := spec_C8 idQ vt1 stA 0 200 100 chA timbreA rfl rfl rfl
  exact ⟨rfl, rfl, rfl, h.2.1⟩

/-- C8 counterexample: a `NoteOn` on a channel whose timbre is absent does
not complete normally — the source dereferences the null `timbre` pointer
(`timbre->GetAppropriateSample`), which the embedding reports as `none`
(undefined behaviour), refuting "completes without undefined behaviour"
for the absent-timbre case. -/
theorem spec_C8_counterexample :
    noteOnCh idQ vt1 true stNT 0 60 100 = none := rfl

/-- C3: in the mixing pass, when the kernel leaves the integer position at
or past `loopEnd` (`loopEnd = length`, `loopBack = 0` without ADSR;
`loopEnd = sample.loopEnd`, `loopBack = loopStart - loopEnd` with ADSR):
with `loopBack = 0` the voice's `playing` is cleared and the inner loop
breaks — no further envelope step runs this buffer; otherwise (a
well-formed loop, `loopStart < loopEnd`) the position is reduced by whole
loop lengths until it is below `loopEnd` — covering overshoots larger than
the loop region, which take several wrap applications — and the voice
keeps playing. -/
theorem spec_C3 (mv : ℚ) (n j : Nat) (bus : List ℚ) (p p1 : SamplePlayer) (s : Sample)
    (busOut : List ℚ) (w1 : InnerWork)
    (hs : p.sample = some s)
    (hp1 : p1 = if s.adsrEnabled then p.UpdateGain else p)
    (hplay : p1.playing = true)
    (hrun : (busOut, w1) = sampler_process_inner s.wave bus
        { src := p1.pos, dst := j * n, posF := p1.posF,
          gain := p1.gain * (mv * 65536), pitch := p1.pitch } n)
    (hpos : w1.src ≥ (if s.adsrEnabled then s.loopEnd else s.length)) :
    ((s.adsrEnabled = false ∨ s.loopStart = s.loopEnd) →
        mixStep mv n bus (j * n) p = (busOut, { p1 with playing := false }, true) ∧
        (∀ steps, mixVoice mv n j bus p (steps + 1)
          = (busOut, { p1 with playing := false }))) ∧
    (s.adsrEnabled = true → s.loopStart < s.loopEnd →
        mixStep mv n bus (j * n) p
          = (busOut,
             { p1 with pos := wrapPos s.loopStart s.loopEnd w1.src, posF := w1.posF },
             false) ∧
        wrapPos s.loopStart s.loopEnd w1.src < s.loopEnd ∧
        (∃ m, w1.src = wrapPos s.loopStart s.loopEnd w1.src
            + m * (s.loopEnd - s.loopStart)) ∧
        SamplePlayer.playing
          { p1 with pos := wrapPos s.loopStart s.loopEnd w1.src, posF := w1.posF }
          = true) := by
  have hbus : busOut = (sampler_process_inner s.wave bus
      { src := p1.pos, dst := j * n, posF := p1.posF,
        gain := p1.gain * (mv * 65536), pitch := p1.pitch } n).1 := congrArg Prod.fst hrun
  have hw : w1 = (sampler_process_inner s.wave bus
      { src := p1.pos, dst := j * n, posF := p1.posF,
        gain := p1.gain * (mv * 65536), pitch := p1.pitch } n).2 := congrArg Prod.snd hrun
  subst hp1
  subst hbus
  subst hw
  have hplay' : ¬ ((if s.adsrEnabled then p.UpdateGain else p).playing = false) := by
    simp [hplay]
  constructor
  · intro hz
    have hzero : (if s.adsrEnabled then s.loopStart = s.loopEnd else True) := by
      rcases hz with h | h
      · rw [h]
        simp
      · split
        · exact h
        · trivial
    have hstep : mixStep mv n bus (j * n) p
        = ((sampler_process_inner s.wave bus
            { src := (if s.adsrEnabled then p.UpdateGain else p).pos, dst := j * n,
              posF := (if s.adsrEnabled then p.UpdateGain else p).posF,
              gain := (if s.adsrEnabled then p.UpdateGain else p).gain * (mv * 65536),
              pitch := (if s.adsrEnabled then p.UpdateGain else p).pitch } n).1,
           { (if s.adsrEnabled then p.UpdateGain else p) with playing := false }, true) := by
      simp only [mixStep, hs, if_neg hplay']
      rw [if_pos hpos, if_pos hzero]
    refine ⟨hstep, ?_⟩
    intro steps
    simp only [mixVoice, hstep, eq_self_iff_true, if_true]
  · intro hadsr hlt
    simp only [hadsr, if_true] at hplay' hpos ⊢
    obtain ⟨hwrapLt, m, hm⟩ := wrapPos_spec s.loopStart s.loopEnd
      ((sampler_process_inner s.wave bus
        { src := p.UpdateGain.pos, dst := j * n, posF := p.UpdateGain.posF,
          gain := p.UpdateGain.gain * (mv * 65536),
          pitch := p.UpdateGain.pitch } n).2.src) hlt
    have hzero : ¬ (s.loopStart = s.loopEnd) := by omega
    have hstep : mixStep mv n bus (j * n) p
        = ((sampler_process_inner s.wave bus
            { src := p.UpdateGain.pos, dst := j * n, posF := p.UpdateGain.posF,
              gain := p.UpdateGain.gain * (mv * 65536),
              pitch := p.UpdateGain.pitch } n).1,
           { p.UpdateGain with
               pos := wrapPos s.loopStart s.loopEnd
                 ((sampler_process_inner s.wave bus
                   { src := p.UpdateGain.pos, dst := j * n, posF := p.UpdateGain.posF,
                     gain := p.UpdateGain.gain * (mv * 65536),
                     pitch := p.UpdateGain.pitch } n).2.src),
               posF := (sampler_process_inner s.wave bus
                 { src := p.UpdateGain.pos, dst := j * n, posF := p.UpdateGain.posF,
                   gain := p.UpdateGain.gain * (mv * 65536),
                   pitch := p.UpdateGain.pitch } n).2.posF },
           false) := by
      simp only [mixStep, hs, hadsr, eq_self_iff_true, if_true, if_neg hplay']
      rw [if_pos hpos, if_neg hzero]
    refine ⟨hstep, hwrapLt, ⟨m, hm⟩, ?_⟩
    simpa [hadsr] using hplay

theorem spec_C3_witness :
    pSusB.sample = some sampleB ∧
    (pSusB = if sampleB.adsrEnabled then pSusB.UpdateGain else pSusB) ∧
    pSusB.playing = true ∧
    ((sampler_process_inner sampleB.wave [0]
        { src := pSusB.pos, dst := 0 * 1, posF := pSusB.posF,
          gain := pSusB.gain * (0 * 65536), pitch := pSusB.pitch } 1).2.src
      ≥ (if sampleB.adsrEnabled then sampleB.loopEnd else sampleB.length)) ∧
    wrapPos sampleB.loopStart sampleB.loopEnd
      ((sampler_process_inner sampleB.wave [0]
        { src := pSusB.pos, dst := 0 * 1, posF := pSusB.posF,
          gain := pSusB.gain * (0 * 65536), pitch := pSusB.pitch } 1).2.src)
      < sampleB.loopEnd := by
  have hsrc : (sampler_process_inner sampleB.wave [0]
      { src := pSusB.pos, dst := 0 * 1, posF := pSusB.posF,
        gain := pSusB.gain * (0 * 65536), pitch := pSusB.pitch } 1).2.src = 16 := by
    norm_num [sampler_process_inner, innerStep, sampleB, wave0, pSusB, Rat.floor_def']
    decide
  have hpos : (sampler_process_inner sampleB.wave [0]
      { src := pSusB.pos, dst := 0 * 1, posF := pSusB.posF,
        gain := pSusB.gain * (0 * 65536), pitch := pSusB.pitch } 1).2.src
      ≥ (if sampleB.adsrEnabled then sampleB.loopEnd else sampleB.length) := by
    rw [hsrc]
    decide
  have h := spec_C3 0 1 0 [0] pSusB pSusB sampleB
    (sampler_process_inner sampleB.wave [0]
      { src := pSusB.pos, dst := 0 * 1, posF := pSusB.posF,
        gain := pSusB.gain * (0 * 65536), pitch := pSusB.pitch } 1).1
    (sampler_process_inner sampleB.wave [0]
      { src := pSusB.pos, dst := 0 * 1, posF := pSusB.posF,
        gain := pSusB.gain * (0 * 65536), pitch := pSusB.pitch } 1).2
    rfl rfl rfl rfl hpos
  exact ⟨rfl, rfl, rfl, hpos, (h.2 rfl (by decide)).2.1⟩

/-- C7 (amended): after `PitchBend(x)` then `PitchBend(0)` on an alive
channel, every voice still listed in that channel's `playingNotes` whose
`channel` field matches ends with the unbent pitch
`2^((noteNo − root)/12)`. (Voices still sounding on the channel but no
longer listed — released notes — are not touched by the walk and may keep
a bent pitch; see the counterexample.) -/
theorem spec_C7 (pow2 : ℚ → ℚ) (st : SamplerState) (c : Nat) (x : ℤ)
    (ch : Channel) (hch : st.channels[c]? = some ch) :
    ∀ e ∈ ch.playingNotes, ∀ (p2 : SamplePlayer) (s : Sample),
      (pitchBendCh pow2 true (pitchBendCh pow2 true st c x) c 0).players[e.playerId]?
        = some p2 →
      p2.channel = c → p2.sample = some s →
      p2.pitch = pow2 (((p2.noteNo : ℚ) - (s.root : ℚ)) / 12) := by
  intro e he p2 s hp2 hchan hsamp
  have hlen : c < st.channels.length := (List.getElem?_eq_some.mp hch).1
  set st1 := pitchBendCh pow2 true st c x with hst1
  have hch1 : st1.channels[c]?
      = some { ch with pitchBend := (x : ℚ) * 12 / 8192 } := by
    rw [hst1]
    simp only [pitchBendCh, hch, Bool.true_eq_false, if_false]
    rw [List.getElem?_set, if_pos rfl, if_pos (by simpa using hlen)]
  have hplayers2 : (pitchBendCh pow2 true st1 c 0).players
      = bendWalk pow2 c (((0 : ℤ) : ℚ) * 12 / 8192)
          st1.players ch.playingNotes := by
    simp only [pitchBendCh, hch1, Bool.true_eq_false, if_false]
  rw [hplayers2, bendWalk_players] at hp2
  rcases hq : st1.players[e.playerId]? with _ | q
  · rw [hq] at hp2
    cases hp2
  · rw [hq] at hp2
    simp only [Option.map_some'] at hp2
    have hp2' := Option.some.inj hp2
    by_cases hcond : (∃ e2 ∈ ch.playingNotes, e2.playerId = e.playerId) ∧ q.channel = c
    · rw [if_pos hcond] at hp2'
      rcases hqs : q.sample with _ | s'
      · exfalso
        rw [← hp2'] at hsamp
        simp [bendApply, SamplePlayer.UpdatePitch, hqs] at hsamp
      · have hform : bendApply pow2 (((0 : ℤ) : ℚ) * 12 / 8192) q
            = { q with
                  pitchBend := ((0 : ℤ) : ℚ) * 12 / 8192,
                  pitch :=
                    pow2 (((q.noteNo : ℚ) - (s'.root : ℚ)
                      + ((0 : ℤ) : ℚ) * 12 / 8192) / 12) } := by
          simp [bendApply, SamplePlayer.UpdatePitch, hqs]
        rw [hform] at hp2'
        have hss : s' = s := by
          rw [← hp2'] at hsamp
          simpa [hqs] using hsamp
        subst hss
        rw [← hp2']
        simp only []
        have hb0 : ((0 : ℤ) : ℚ) * 12 / 8192 = 0 := by norm_num
        rw [hb0, add_zero]
    · rw [if_neg hcond] at hp2'
      rw [hp2'] at hcond
      exact absurd ⟨⟨e, he, rfl⟩, hchan⟩ hcond

theorem spec_C7_witness :
    stN.channels[0]? = some chN ∧
    (∀ e ∈ chN.playingNotes, ∀ (p2 : SamplePlayer) (s : Sample),
      (pitchBendCh idQ true (pitchBendCh idQ true stN 0 5) 0 0).players[e.playerId]?
        = some p2 →
      p2.channel = 0 → p2.sample = some s →
      p2.pitch = idQ (((p2.noteNo : ℚ) - (s.root : ℚ)) / 12)) :=
  ⟨rfl, spec_C7 idQ stN 0 5 chN rfl⟩

/-- C7 counterexample: a reachable run refuting the claim as stated. From
a fresh state: bend the channel (`PitchBend(4096)`, +6 semitones), start
note 60 (the voice's pitch bakes the bend in), release it (`NoteOff`
erases the `playingNotes` entry but the voice keeps sounding through its
release), then run `PitchBend(8192); PitchBend(0)`. The voice is still
sounding on channel 0 (`playing = true`, `channel = 0`), yet its pitch is
the bent `pow2((60 − 60 + 6)/12)`, not the unbent `pow2((60 − 60)/12)` the
claim promises — with the injective stand-in `idQ` for `powf(2, ·)` the
two differ. -/
theorem spec_C7_counterexample :
    ∃ st2 : SamplerState,
      noteOnCh idQ vt1 true (pitchBendCh idQ true stA 0 4096) 0 60 100 = some st2 ∧
      ((pitchBendCh idQ true (pitchBendCh idQ true (noteOffCh true st2 0 60) 0 8192)
          0 0).players[0]?).map SamplePlayer.playing = some true ∧
      ((pitchBendCh idQ true (pitchBendCh idQ true (noteOffCh true st2 0 60) 0 8192)
          0 0).players[0]?).map SamplePlayer.channel = some 0 ∧
      ((pitchBendCh idQ true (pitchBendCh idQ true (noteOffCh true st2 0 60) 0 8192)
          0 0).players[0]?).map SamplePlayer.pitch
        = some (idQ ((((60 : ℕ) : ℚ) - ((60 : ℕ) : ℚ)
            + ((4096 : ℤ) : ℚ) * 12 / 8192) / 12)) ∧
      idQ ((((60 : ℕ) : ℚ) - ((60 : ℕ) : ℚ) + ((4096 : ℤ) : ℚ) * 12 / 8192) / 12)
        ≠ idQ ((((60 : ℕ) : ℚ) - ((60 : ℕ) : ℚ)) / 12) := by
  refine ⟨_, rfl, rfl, rfl, rfl, ?_⟩
  norm_num [idQ]

end CapsuleSampler
